import Mathlib

/-!
Verification of the graph-triangulation subsystem of `pyBN` (file
`pyBN/classes/BayesNet.py`): moralization (`get_moralized_edge_list`),
the chordality test (`is_chordal`) and the elimination-game triangulation
(`get_chordal_nx`).

Vertices are Python strings; here they are modelled as opaque atoms with
decidable equality (`Nat`).  A Python edge `[a, b]` is modelled as the pair
`(a, b)`; the `data` dict is an association list, and a missing dict key
(Python `KeyError`) is modelled by `Except PyError`.
-/

namespace pyBN

abbrev Vertex := Nat

abbrev Edge := Vertex × Vertex

/-- One entry of the `data` dict.  Only the fields that the triangulation
subsystem can touch are modelled: `parents` (read by
`get_moralized_edge_list`) and `vals` (named by the spec's error taxonomy).
`none` models a missing dict key.  The remaining fields (`numoutcomes`,
`children`, `cprob`) are never read by moralization, triangulation or the
chordality test. -/
structure NodeData where
  vals : Option (List Nat) := none
  parents : Option (List Vertex) := none
deriving DecidableEq

/-- The `BayesNet` object: vertex list `V`, directed edge list `E`, and the
`data` dict (as an association list). -/
structure BayesNet where
  V : List Vertex
  E : List Edge
  data : List (Vertex × NodeData)
deriving DecidableEq

/-- Python exceptions that the modelled code can raise: `KeyError` from a
missing dict key (`self.data[node]` or `['parents']`). -/
inductive PyError where
  | keyError
deriving DecidableEq

instance : DecidableEq (Except PyError (List Edge)) := fun a b =>
  match a, b with
  | .error x, .error y =>
    if h : x = y then .isTrue (by rw [h]) else
      .isFalse (fun hc => by cases hc; exact h rfl)
  | .error _, .ok _ => .isFalse (fun hc => by cases hc)
  | .ok _, .error _ => .isFalse (fun hc => by cases hc)
  | .ok x, .ok y =>
    if h : x = y then .isTrue (by rw [h]) else
      .isFalse (fun hc => by cases hc; exact h rfl)

/-- `self.data[node]['parents']`: `none` when either lookup would raise. -/
def dictFind : List (Vertex × NodeData) → Vertex → Option NodeData
  | [], _ => none
  | (k, d) :: rest, n => if n = k then some d else dictFind rest n

def parentsOf (bn : BayesNet) (n : Vertex) : Option (List Vertex) :=
  match dictFind bn.data n with
  | none => none
  | some nd => nd.parents

/-- `self.data[node]['vals']`: `none` when either lookup would raise. -/
def valsOf (bn : BayesNet) (n : Vertex) : Option (List Nat) :=
  match dictFind bn.data n with
  | none => none
  | some nd => nd.vals

/-! ## Undirected-graph view of an edge list (networkx `Graph` semantics)

`nx.Graph.add_edges_from` identifies `(a,b)` with `(b,a)` and drops
duplicates; adjacency, vertex set and degree below are stated on the raw
edge list accordingly. -/

/-- The vertices incident to at least one edge (the node set of the
`nx.Graph` built from the list). -/
def verts (E : List Edge) : List Vertex :=
  (E.flatMap fun e => [e.1, e.2]).dedup

/-- Undirected adjacency of the graph of an edge list (self-loops are not
adjacencies). -/
def adjb (E : List Edge) (a b : Vertex) : Bool :=
  decide (a ≠ b ∧ ((a, b) ∈ E ∨ (b, a) ∈ E))

/-- `a ≤ b`-canonical form of an undirected edge. -/
def canon (e : Edge) : Edge :=
  if e.1 ≤ e.2 then e else (e.2, e.1)

/-- The deduplicated undirected edge list (the edge set of the `nx.Graph`). -/
def nxE (E : List Edge) : List Edge :=
  (E.map canon).dedup

/-- Degree of a vertex in the `nx.Graph` of the list (a self-loop counts
twice, as in networkx). -/
def degree (E : List Edge) (x : Vertex) : Nat :=
  ((nxE E).filter fun e => decide (x = e.1 ∨ x = e.2)).length
    + ((nxE E).filter fun e => decide (x = e.1 ∧ e.1 = e.2)).length

/-! ## Chordality -/

/-- Is the list of vertices a clique (pairwise adjacent) in `E`? -/
def cliqueb (E : List Edge) : List Vertex → Bool
  | [] => true
  | a :: l => l.all (adjb E a) && cliqueb E l

/-- Is the vertex list a perfect elimination ordering of the graph of `E`:
for each vertex, do its neighbours occurring later in the list form a
clique? -/
def peo (E : List Edge) : List Vertex → Bool
  | [] => true
  | v :: rest => cliqueb E (rest.filter (adjb E v)) && peo E rest

/-- Modelled from the spec: the chordality decision that the source
delegates to the external graph library (`nx.is_chordal`, not part of this
repository).  Following §4.2 of the spec, which states that a graph is
chordal iff it admits a perfect elimination ordering, the test searches the
orderings of the vertex set for a perfect elimination ordering. -/
def chordalb (E : List Edge) : Bool :=
  (verts E).permutations'.any (peo E)

/-- Python truthiness of a list-or-`None` argument. -/
def truthy : Option (List α) → Bool
  | none => false
  | some l => !l.isEmpty

/-- `BayesNet.is_chordal(edge_list=None)`.  NOTE the source's
`if not edge_list: edge_list = self.E`: a `None` **or empty** argument
falls back to the network's own edge list. -/
def BayesNet.is_chordal (bn : BayesNet) (edge_list : Option (List Edge)) : Bool :=
  match edge_list with
  | none => chordalb bn.E
  | some l => if l.isEmpty then chordalb bn.E else chordalb l

/-! ## Moralization (`get_moralized_edge_list`) -/

/-- Body of the innermost conditional: append `(p1, p2)` unless `p1 = p2`
or either orientation is already in the accumulating list. -/
def marryPair (p1 p2 : Vertex) (el : List Edge) : List Edge :=
  if p1 ≠ p2 ∧ (p1, p2) ∉ el ∧ (p2, p1) ∉ el then el ++ [(p1, p2)] else el

/-- `for p2 in parents: ...` -/
def marryInner (p1 : Vertex) : List Vertex → List Edge → List Edge
  | [], el => el
  | p2 :: rest, el => marryInner p1 rest (marryPair p1 p2 el)

/-- `for p1 in parents: for p2 in parents: ...` -/
def marryOuter (ps : List Vertex) : List Vertex → List Edge → List Edge
  | [], el => el
  | p1 :: rest, el => marryOuter ps rest (marryInner p1 ps el)

/-- Process one node of the moralization loop. -/
def marryStep (el : List Edge) (ps : List Vertex) : List Edge :=
  marryOuter ps ps el

/-- `for node in self.V:` — a missing `data[node]` entry or missing
`'parents'` key raises `KeyError` (no partial result escapes). -/
def moralLoop (bn : BayesNet) (el : List Edge) : List Vertex → Except PyError (List Edge)
  | [] => .ok el
  | n :: rest =>
    match parentsOf bn n with
    | none => .error .keyError
    | some ps => moralLoop bn (marryStep el ps) rest

/-- `BayesNet.get_moralized_edge_list`: start from a copy of `self.E` and
marry the parents of every node. -/
def get_moralized_edge_list (bn : BayesNet) : Except PyError (List Edge) :=
  moralLoop bn bn.E bn.V

/-! ## Triangulation (`get_chordal_nx`) -/

/-- `adj_v = set([n for e in temp_E for n in e if v in e and n != v])`. -/
def adjList (tempE : List Edge) (v : Vertex) : List Vertex :=
  ((tempE.flatMap fun e =>
      if v = e.1 ∨ v = e.2 then [e.1, e.2] else []).filter fun n => n ≠ v).dedup

/-- State of the elimination loop: the accumulating result `chordal_E`
(first component) and the shrinking working list `temp_E` (second). -/
abbrev ElimSt := List Edge × List Edge

/-- Innermost conditional of the fill-in loop: append `(a1, a2)` to both
lists unless `a1 = a2` or either orientation is already in `chordal_E`. -/
def fillPair (a1 a2 : Vertex) (st : ElimSt) : ElimSt :=
  if a1 ≠ a2 ∧ (a1, a2) ∉ st.1 ∧ (a2, a1) ∉ st.1 then
    (st.1 ++ [(a1, a2)], st.2 ++ [(a1, a2)])
  else st

/-- `for a2 in adj_v: ...` -/
def fillInner (a1 : Vertex) : List Vertex → ElimSt → ElimSt
  | [], st => st
  | a2 :: rest, st => fillInner a1 rest (fillPair a1 a2 st)

/-- `for a1 in adj_v: for a2 in adj_v: ...` -/
def fillOuter (adj : List Vertex) : List Vertex → ElimSt → ElimSt
  | [], st => st
  | a1 :: rest, st => fillOuter adj rest (fillInner a1 adj st)

/-- One iteration of `for v in temp_V`: make the current neighbourhood of
`v` a clique (fill-ins go to both lists), then delete every edge incident
to `v` from `temp_E`. -/
def elimStep (st : ElimSt) (v : Vertex) : ElimSt :=
  let adj := adjList st.2 v
  let st1 := fillOuter adj adj st
  (st1.1, st1.2.filter fun e => ¬(v = e.1 ∨ v = e.2))

def elimLoop : List Vertex → ElimSt → ElimSt
  | [], st => st
  | v :: rest, st => elimLoop rest (elimStep st v)

/-- The full elimination game: run the loop from `chordal_E = temp_E = E`
over the given vertex order and return the accumulated `chordal_E`. -/
def elimGame (E : List Edge) (order : List Vertex) : List Edge :=
  (elimLoop order (E, E)).1

/-- Insert a vertex into a list sorted by ascending degree. -/
def insertByDeg (d : Vertex → Nat) (v : Vertex) : List Vertex → List Vertex
  | [] => [v]
  | w :: l => if d v ≤ d w then v :: w :: l else w :: insertByDeg d v l

def sortByDeg (d : Vertex → Nat) : List Vertex → List Vertex
  | [] => []
  | v :: l => insertByDeg d v (sortByDeg d l)

/-- `sorted(degree_dict, key=degree_dict.get)`: the vertices of the graph
of `E` in ascending order of degree. -/
def degreeOrder (E : List Edge) : List Vertex :=
  sortByDeg (degree E) (verts E)

/-- `BayesNet.get_chordal_nx(v=None, e=None)`.  Starts from the moral edge
list; if `self.is_chordal` accepts it, it is returned as is.  Otherwise,
when **both** `v` and `e` are truthy the elimination game runs over `e`
with order `v` (discarding the moral edges!); otherwise it runs over the
moral edges with the vertices sorted by ascending degree.  The returned
`nx.Graph` is represented by its defining edge list. -/
def get_chordal_nx (bn : BayesNet) (v : Option (List Vertex))
    (e : Option (List Edge)) : Except PyError (List Edge) :=
  match get_moralized_edge_list bn with
  | .error er => .error er
  | .ok chordalE =>
    if bn.is_chordal (some chordalE) then .ok chordalE
    else if truthy v && truthy e then
      .ok (elimGame (e.getD []) (v.getD []))
    else
      .ok (elimGame chordalE (degreeOrder chordalE))

/-- The triangulation procedure of `get_chordal_nx` viewed as an edge-set
transformation (the no-override path, starting from an arbitrary edge
list). -/
def triangulate (E : List Edge) : List Edge :=
  if chordalb E then E else elimGame E (degreeOrder E)

/-! ## Predicates used by the claims -/

/-- The unordered pair `{x, y}` occurs in the list (in some orientation). -/
def pairMem (x y : Vertex) (l : List Edge) : Prop :=
  (x, y) ∈ l ∨ (y, x) ∈ l

instance (x y : Vertex) (l : List Edge) : Decidable (pairMem x y l) := by
  unfold pairMem; infer_instance

/-- No two distinct entries of the list are the two orientations of one
unordered pair. -/
def distinctOrient (l : List Edge) : Prop :=
  ∀ e ∈ l, ∀ f ∈ l, e.1 = f.2 → e.2 = f.1 → e.1 = e.2

instance (l : List Edge) : Decidable (distinctOrient l) := by
  unfold distinctOrient; infer_instance

/-! ## Concrete networks used as witnesses and counterexamples -/

/-- Scenario 1 of the spec: `A → C`, `B → C` with `A = 1`, `B = 2`,
`C = 3`. -/
def bnTri : BayesNet :=
  { V := [1, 2, 3]
    E := [(1, 3), (2, 3)]
    data := [(1, { vals := some [0], parents := some [] }),
             (2, { vals := some [0], parents := some [] }),
             (3, { vals := some [0], parents := some [1, 2] })] }

/-- A DAG `1→2→3→4`, `1→5→4` whose moral graph (its skeleton plus the
marriage `(3,5)`) contains the chordless 4-cycle `1-2-3-5`. -/
def bn5 : BayesNet :=
  { V := [1, 2, 3, 4, 5]
    E := [(1, 2), (2, 3), (3, 4), (5, 4), (1, 5)]
    data := [(1, { vals := some [0], parents := some [] }),
             (2, { vals := some [0], parents := some [1] }),
             (3, { vals := some [0], parents := some [2] }),
             (4, { vals := some [0], parents := some [3, 5] }),
             (5, { vals := some [0], parents := some [1] })] }

/-- A network with no vertices and no edges. -/
def bnEmpty : BayesNet := { V := [], E := [], data := [] }

/-- A one-vertex network whose `data` entry lacks the `vals` key. -/
def bnNoVals : BayesNet :=
  { V := [1], E := [], data := [(1, { vals := none, parents := some [] })] }

/-- A one-vertex network whose `data` entry lacks the `parents` key. -/
def bnNoPar : BayesNet :=
  { V := [1], E := [], data := [(1, { vals := some [0], parents := none })] }

/-! ## Basic lemmas about the graph view -/

theorem mem_verts {E : List Edge} {x : Vertex} :
    x ∈ verts E ↔ ∃ e ∈ E, x = e.1 ∨ x = e.2 := by
  simp [verts, List.mem_dedup, List.mem_flatMap]

theorem adjb_iff {E : List Edge} {a b : Vertex} :
    adjb E a b = true ↔ a ≠ b ∧ ((a, b) ∈ E ∨ (b, a) ∈ E) := by
  simp [adjb]

theorem adjb_mono {E F : List Edge} (h : ∀ e ∈ E, e ∈ F) {a b : Vertex}
    (hab : adjb E a b = true) : adjb F a b = true := by
  rcases adjb_iff.1 hab with ⟨hne, h1 | h1⟩
  · exact adjb_iff.2 ⟨hne, .inl (h _ h1)⟩
  · exact adjb_iff.2 ⟨hne, .inr (h _ h1)⟩

theorem cliqueb_of {E : List Edge} : ∀ {l : List Vertex}, l.Nodup →
    (∀ a ∈ l, ∀ b ∈ l, a ≠ b → adjb E a b = true) → cliqueb E l = true
  | [], _, _ => rfl
  | a :: t, hn, h => by
    simp only [cliqueb, Bool.and_eq_true, List.all_eq_true]
    refine ⟨fun b hb => ?_, cliqueb_of (List.nodup_cons.1 hn).2
      (fun x hx y hy hxy =>
        h x (List.mem_cons_of_mem _ hx) y (List.mem_cons_of_mem _ hy) hxy)⟩
    exact h a (List.mem_cons_self ..) b (List.mem_cons_of_mem _ hb)
      (fun hab => (List.nodup_cons.1 hn).1 (hab ▸ hb))

theorem mem_adjList {T : List Edge} {v u : Vertex} :
    u ∈ adjList T v ↔ u ≠ v ∧ ((v, u) ∈ T ∨ (u, v) ∈ T) := by
  simp only [adjList, List.mem_dedup, List.mem_filter, List.mem_flatMap,
    decide_eq_true_eq]
  constructor
  · rintro ⟨⟨e, he, hu⟩, hne⟩
    refine ⟨hne, ?_⟩
    obtain ⟨x, y⟩ := e
    by_cases hv : v = x ∨ v = y
    · rw [if_pos hv] at hu
      rcases hv with hv | hv
      · rcases List.mem_pair.1 hu with hu | hu
        · exact absurd (hu.trans hv.symm) hne
        · exact .inl (by rwa [hv, hu])
      · rcases List.mem_pair.1 hu with hu | hu
        · exact .inr (by rwa [hv, hu])
        · exact absurd (hu.trans hv.symm) hne
    · rw [if_neg hv] at hu
      exact absurd hu (List.not_mem_nil u)
  · rintro ⟨hne, h | h⟩
    · exact ⟨⟨(v, u), h, by simp [hne]⟩, hne⟩
    · exact ⟨⟨(u, v), h, by simp [hne]⟩, hne⟩

theorem adjList_ne {T : List Edge} {v u : Vertex} (h : u ∈ adjList T v) :
    u ≠ v := (mem_adjList.1 h).1

theorem adjList_endpoint {T : List Edge} {v u : Vertex} (h : u ∈ adjList T v) :
    ∃ e ∈ T, u = e.1 ∨ u = e.2 := by
  rcases (mem_adjList.1 h).2 with h1 | h1
  · exact ⟨(v, u), h1, .inr rfl⟩
  · exact ⟨(u, v), h1, .inl rfl⟩

theorem insertByDeg_perm (d : Vertex → Nat) (v : Vertex) :
    ∀ l : List Vertex, List.Perm (insertByDeg d v l) (v :: l)
  | [] => .refl _
  | w :: l => by
    unfold insertByDeg
    split
    · exact .refl _
    · exact ((insertByDeg_perm d v l).cons w).trans (List.Perm.swap v w l)

theorem sortByDeg_perm (d : Vertex → Nat) :
    ∀ l : List Vertex, List.Perm (sortByDeg d l) l
  | [] => .refl _
  | v :: l => (insertByDeg_perm d v _).trans ((sortByDeg_perm d l).cons v)

theorem degreeOrder_perm (E : List Edge) : List.Perm (degreeOrder E) (verts E) :=
  sortByDeg_perm _ _

/-! ## Lemmas about the fill-in double loop -/

theorem fillPair_cases (a1 a2 : Vertex) (st : ElimSt) :
    fillPair a1 a2 st = st ∨
      (a1 ≠ a2 ∧ fillPair a1 a2 st = (st.1 ++ [(a1, a2)], st.2 ++ [(a1, a2)])) := by
  unfold fillPair
  split
  · next h => exact .inr ⟨h.1, rfl⟩
  · exact .inl rfl

theorem fillPair_mono1 {a1 a2 : Vertex} {st : ElimSt} {e : Edge} (h : e ∈ st.1) :
    e ∈ (fillPair a1 a2 st).1 := by
  rcases fillPair_cases a1 a2 st with hc | ⟨_, hc⟩ <;> rw [hc]
  · exact h
  · exact List.mem_append_left _ h

theorem fillPair_mono2 {a1 a2 : Vertex} {st : ElimSt} {e : Edge} (h : e ∈ st.2) :
    e ∈ (fillPair a1 a2 st).2 := by
  rcases fillPair_cases a1 a2 st with hc | ⟨_, hc⟩ <;> rw [hc]
  · exact h
  · exact List.mem_append_left _ h

theorem fillInner_mono1 {a1 : Vertex} {e : Edge} :
    ∀ (l : List Vertex) (st : ElimSt), e ∈ st.1 → e ∈ (fillInner a1 l st).1 := by
  intro l
  induction l with
  | nil => exact fun st h => h
  | cons a2 rest ih =>
    intro st h
    simp only [fillInner]
    exact ih _ (fillPair_mono1 h)

theorem fillInner_mono2 {a1 : Vertex} {e : Edge} :
    ∀ (l : List Vertex) (st : ElimSt), e ∈ st.2 → e ∈ (fillInner a1 l st).2 := by
  intro l
  induction l with
  | nil => exact fun st h => h
  | cons a2 rest ih =>
    intro st h
    simp only [fillInner]
    exact ih _ (fillPair_mono2 h)

theorem fillOuter_mono1 {adj : List Vertex} {e : Edge} :
    ∀ (l : List Vertex) (st : ElimSt), e ∈ st.1 → e ∈ (fillOuter adj l st).1 := by
  intro l
  induction l with
  | nil => exact fun st h => h
  | cons a1 rest ih =>
    intro st h
    simp only [fillOuter]
    exact ih _ (fillInner_mono1 _ _ h)

theorem fillOuter_mono2 {adj : List Vertex} {e : Edge} :
    ∀ (l : List Vertex) (st : ElimSt), e ∈ st.2 → e ∈ (fillOuter adj l st).2 := by
  intro l
  induction l with
  | nil => exact fun st h => h
  | cons a1 rest ih =>
    intro st h
    simp only [fillOuter]
    exact ih _ (fillInner_mono2 _ _ h)

theorem fillPair_new1 {a1 a2 : Vertex} {st : ElimSt} {e : Edge}
    (h : e ∈ (fillPair a1 a2 st).1) :
    e ∈ st.1 ∨ (e = (a1, a2) ∧ a1 ≠ a2) := by
  rcases fillPair_cases a1 a2 st with hc | ⟨hne, hc⟩ <;> rw [hc] at h
  · exact .inl h
  · rcases List.mem_append.1 h with h | h
    · exact .inl h
    · exact .inr ⟨List.mem_singleton.1 h, hne⟩

theorem fillPair_new2 {a1 a2 : Vertex} {st : ElimSt} {e : Edge}
    (h : e ∈ (fillPair a1 a2 st).2) :
    e ∈ st.2 ∨ (e = (a1, a2) ∧ a1 ≠ a2) := by
  rcases fillPair_cases a1 a2 st with hc | ⟨hne, hc⟩ <;> rw [hc] at h
  · exact .inl h
  · rcases List.mem_append.1 h with h | h
    · exact .inl h
    · exact .inr ⟨List.mem_singleton.1 h, hne⟩

theorem fillInner_new1 {a1 : Vertex} {e : Edge} :
    ∀ (l : List Vertex) (st : ElimSt), e ∈ (fillInner a1 l st).1 →
      e ∈ st.1 ∨ ∃ a2 ∈ l, e = (a1, a2) ∧ a1 ≠ a2 := by
  intro l
  induction l with
  | nil => exact fun st h => .inl h
  | cons a2 rest ih =>
    intro st h
    simp only [fillInner] at h
    rcases ih _ h with h1 | ⟨b, hb, he⟩
    · rcases fillPair_new1 h1 with h2 | h2
      · exact .inl h2
      · exact .inr ⟨a2, List.mem_cons_self .., h2⟩
    · exact .inr ⟨b, List.mem_cons_of_mem _ hb, he⟩

theorem fillInner_new2 {a1 : Vertex} {e : Edge} :
    ∀ (l : List Vertex) (st : ElimSt), e ∈ (fillInner a1 l st).2 →
      e ∈ st.2 ∨ ∃ a2 ∈ l, e = (a1, a2) ∧ a1 ≠ a2 := by
  intro l
  induction l with
  | nil => exact fun st h => .inl h
  | cons a2 rest ih =>
    intro st h
    simp only [fillInner] at h
    rcases ih _ h with h1 | ⟨b, hb, he⟩
    · rcases fillPair_new2 h1 with h2 | h2
      · exact .inl h2
      · exact .inr ⟨a2, List.mem_cons_self .., h2⟩
    · exact .inr ⟨b, List.mem_cons_of_mem _ hb, he⟩

theorem fillOuter_new1 {adj : List Vertex} {e : Edge} :
    ∀ (l : List Vertex) (st : ElimSt), e ∈ (fillOuter adj l st).1 →
      e ∈ st.1 ∨ ∃ x ∈ l, ∃ y ∈ adj, e = (x, y) ∧ x ≠ y := by
  intro l
  induction l with
  | nil => exact fun st h => .inl h
  | cons a1 rest ih =>
    intro st h
    simp only [fillOuter] at h
    rcases ih _ h with h1 | ⟨x, hx, hrest⟩
    · rcases fillInner_new1 _ _ h1 with h2 | ⟨y, hy, he⟩
      · exact .inl h2
      · exact .inr ⟨a1, List.mem_cons_self .., y, hy, he⟩
    · exact .inr ⟨x, List.mem_cons_of_mem _ hx, hrest⟩

theorem fillOuter_new2 {adj : List Vertex} {e : Edge} :
    ∀ (l : List Vertex) (st : ElimSt), e ∈ (fillOuter adj l st).2 →
      e ∈ st.2 ∨ ∃ x ∈ l, ∃ y ∈ adj, e = (x, y) ∧ x ≠ y := by
  intro l
  induction l with
  | nil => exact fun st h => .inl h
  | cons a1 rest ih =>
    intro st h
    simp only [fillOuter] at h
    rcases ih _ h with h1 | ⟨x, hx, hrest⟩
    · rcases fillInner_new2 _ _ h1 with h2 | ⟨y, hy, he⟩
      · exact .inl h2
      · exact .inr ⟨a1, List.mem_cons_self .., y, hy, he⟩
    · exact .inr ⟨x, List.mem_cons_of_mem _ hx, hrest⟩

theorem fillPair_sub {a1 a2 : Vertex} {st : ElimSt}
    (h : ∀ e ∈ st.2, e ∈ st.1) :
    ∀ e ∈ (fillPair a1 a2 st).2, e ∈ (fillPair a1 a2 st).1 := by
  intro e he
  rcases fillPair_cases a1 a2 st with hc | ⟨_, hc⟩ <;> rw [hc] at he ⊢
  · exact h e he
  · rcases List.mem_append.1 he with he | he
    · exact List.mem_append_left _ (h e he)
    · exact List.mem_append_right _ he

theorem fillInner_sub {a1 : Vertex} :
    ∀ (l : List Vertex) (st : ElimSt), (∀ e ∈ st.2, e ∈ st.1) →
      ∀ e ∈ (fillInner a1 l st).2, e ∈ (fillInner a1 l st).1 := by
  intro l
  induction l with
  | nil => exact fun st h => h
  | cons a2 rest ih =>
    intro st h
    simp only [fillInner]
    exact ih _ (fillPair_sub h)

theorem fillOuter_sub {adj : List Vertex} :
    ∀ (l : List Vertex) (st : ElimSt), (∀ e ∈ st.2, e ∈ st.1) →
      ∀ e ∈ (fillOuter adj l st).2, e ∈ (fillOuter adj l st).1 := by
  intro l
  induction l with
  | nil => exact fun st h => h
  | cons a1 rest ih =>
    intro st h
    simp only [fillOuter]
    exact ih _ (fillInner_sub _ _ h)

theorem fillPair_sync {C0 : List Edge} {a1 a2 : Vertex} {st : ElimSt}
    (h : ∀ e ∈ st.1, e ∈ C0 ∨ e ∈ st.2) :
    ∀ e ∈ (fillPair a1 a2 st).1, e ∈ C0 ∨ e ∈ (fillPair a1 a2 st).2 := by
  intro e he
  rcases fillPair_cases a1 a2 st with hc | ⟨_, hc⟩ <;> rw [hc] at he ⊢
  · exact h e he
  · rcases List.mem_append.1 he with he | he
    · rcases h e he with h1 | h1
      · exact .inl h1
      · exact .inr (List.mem_append_left _ h1)
    · exact .inr (List.mem_append_right _ he)

theorem fillInner_sync {C0 : List Edge} {a1 : Vertex} :
    ∀ (l : List Vertex) (st : ElimSt), (∀ e ∈ st.1, e ∈ C0 ∨ e ∈ st.2) →
      ∀ e ∈ (fillInner a1 l st).1, e ∈ C0 ∨ e ∈ (fillInner a1 l st).2 := by
  intro l
  induction l with
  | nil => exact fun st h => h
  | cons a2 rest ih =>
    intro st h
    simp only [fillInner]
    exact ih _ (fillPair_sync h)

theorem fillOuter_sync {C0 : List Edge} {adj : List Vertex} :
    ∀ (l : List Vertex) (st : ElimSt), (∀ e ∈ st.1, e ∈ C0 ∨ e ∈ st.2) →
      ∀ e ∈ (fillOuter adj l st).1, e ∈ C0 ∨ e ∈ (fillOuter adj l st).2 := by
  intro l
  induction l with
  | nil => exact fun st h => h
  | cons a1 rest ih =>
    intro st h
    simp only [fillOuter]
    exact ih _ (fillInner_sync _ _ h)

theorem fillPair_ensures {a1 a2 : Vertex} {st : ElimSt} (hne : a1 ≠ a2) :
    adjb (fillPair a1 a2 st).1 a1 a2 = true := by
  unfold fillPair
  split
  · exact adjb_iff.2 ⟨hne, .inl (List.mem_append_right _ (List.mem_singleton.2 rfl))⟩
  · next hcond =>
    rcases not_and_or.1 hcond with h | h
    · exact absurd hne h
    · rcases not_and_or.1 h with h1 | h1
      · exact adjb_iff.2 ⟨hne, .inl (not_not.1 h1)⟩
      · exact adjb_iff.2 ⟨hne, .inr (not_not.1 h1)⟩

theorem fillInner_ensures {a1 : Vertex} :
    ∀ (l : List Vertex) (st : ElimSt) (a2 : Vertex), a2 ∈ l → a1 ≠ a2 →
      adjb (fillInner a1 l st).1 a1 a2 = true := by
  intro l
  induction l with
  | nil => intro st a2 h; exact absurd h (List.not_mem_nil a2)
  | cons b rest ih =>
    intro st a2 h hne
    simp only [fillInner]
    rcases List.mem_cons.1 h with h | h
    · subst h
      exact adjb_mono (fun e he => fillInner_mono1 _ _ he) (fillPair_ensures hne)
    · exact ih _ _ h hne

theorem fillOuter_ensures {adj : List Vertex} :
    ∀ (l : List Vertex) (st : ElimSt) (a1 a2 : Vertex), a1 ∈ l → a2 ∈ adj →
      a1 ≠ a2 → adjb (fillOuter adj l st).1 a1 a2 = true := by
  intro l
  induction l with
  | nil => intro st a1 a2 h; exact absurd h (List.not_mem_nil a1)
  | cons b rest ih =>
    intro st a1 a2 h1 h2 hne
    simp only [fillOuter]
    rcases List.mem_cons.1 h1 with h1 | h1
    · subst h1
      exact adjb_mono (fun e he => fillOuter_mono1 _ _ he) (fillInner_ensures _ _ _ h2 hne)
    · exact ih _ _ _ h1 h2 hne

/-- After the fill-in double loop for a vertex, its (precomputed)
neighbourhood is a clique in the accumulated `chordal_E`. -/
theorem fill_clique {adj : List Vertex} {st : ElimSt} {a b : Vertex}
    (ha : a ∈ adj) (hb : b ∈ adj) (hne : a ≠ b) :
    adjb (fillOuter adj adj st).1 a b = true :=
  fillOuter_ensures _ _ _ _ ha hb hne

/-! ## Lemmas about the elimination loop -/

theorem elimStep_mono1 {st : ElimSt} {v : Vertex} {e : Edge} (h : e ∈ st.1) :
    e ∈ (elimStep st v).1 := by
  simp only [elimStep]
  exact fillOuter_mono1 _ _ h

theorem elimLoop_mono1 :
    ∀ (l : List Vertex) (st : ElimSt) {e : Edge}, e ∈ st.1 → e ∈ (elimLoop l st).1 := by
  intro l
  induction l with
  | nil => intro st e h; exact h
  | cons v rest ih =>
    intro st e h
    simp only [elimLoop]
    exact ih _ (elimStep_mono1 h)

theorem elimStep_new1 {st : ElimSt} {v : Vertex} {e : Edge}
    (h : e ∈ (elimStep st v).1) :
    e ∈ st.1 ∨ (e.1 ∈ adjList st.2 v ∧ e.2 ∈ adjList st.2 v ∧ e.1 ≠ e.2) := by
  simp only [elimStep] at h
  rcases fillOuter_new1 _ _ h with h1 | ⟨x, hx, y, hy, he, hxy⟩
  · exact .inl h1
  · subst he
    exact .inr ⟨hx, hy, hxy⟩

theorem elimStep_new2 {st : ElimSt} {v : Vertex} {e : Edge}
    (h : e ∈ (elimStep st v).2) :
    (e ∈ st.2 ∨ (e.1 ∈ adjList st.2 v ∧ e.2 ∈ adjList st.2 v ∧ e.1 ≠ e.2))
      ∧ e.1 ≠ v ∧ e.2 ≠ v := by
  simp only [elimStep] at h
  rcases List.mem_filter.1 h with ⟨h1, h2⟩
  rw [decide_eq_true_eq] at h2
  push_neg at h2
  refine ⟨?_, fun h3 => h2.1 h3.symm, fun h3 => h2.2 h3.symm⟩
  rcases fillOuter_new2 _ _ h1 with h3 | ⟨x, hx, y, hy, he, hxy⟩
  · exact .inl h3
  · subst he
    exact .inr ⟨hx, hy, hxy⟩

theorem elimStep_sub {st : ElimSt} {v : Vertex}
    (h : ∀ e ∈ st.2, e ∈ st.1) :
    ∀ e ∈ (elimStep st v).2, e ∈ (elimStep st v).1 := by
  intro e he
  simp only [elimStep] at he ⊢
  exact fillOuter_sub _ _ h e (List.mem_filter.1 he).1

theorem elimStep_sync {st : ElimSt} {v : Vertex} {e : Edge}
    (h : e ∈ (elimStep st v).1) :
    e ∈ st.1 ∨ e ∈ (fillOuter (adjList st.2 v) (adjList st.2 v) st).2 := by
  simp only [elimStep] at h
  exact fillOuter_sync _ _ (fun f hf => .inl hf) e h

/-- Edges produced by the remainder of the elimination loop never touch a
vertex that every current `temp_E` edge avoids. -/
theorem elimLoop_avoid :
    ∀ (l : List Vertex) (st : ElimSt) (W : List Vertex),
      (∀ e ∈ st.2, e.1 ∉ W ∧ e.2 ∉ W) →
      ∀ e ∈ (elimLoop l st).1, e ∈ st.1 ∨ (e.1 ∉ W ∧ e.2 ∉ W) := by
  intro l
  induction l with
  | nil => exact fun st W _ e he => .inl he
  | cons v rest ih =>
    intro st W hT e he
    simp only [elimLoop] at he
    have hadj : ∀ x ∈ adjList st.2 v, x ∉ W := by
      intro x hx
      rcases adjList_endpoint hx with ⟨f, hf, hx1 | hx1⟩
      · exact hx1 ▸ (hT f hf).1
      · exact hx1 ▸ (hT f hf).2
    have hT' : ∀ f ∈ (elimStep st v).2, f.1 ∉ W ∧ f.2 ∉ W := by
      intro f hf
      rcases (elimStep_new2 hf).1 with h1 | ⟨h1, h2, _⟩
      · exact hT f h1
      · exact ⟨hadj _ h1, hadj _ h2⟩
    rcases ih _ W hT' e he with h1 | h1
    · rcases elimStep_new1 h1 with h2 | ⟨h2, h3, _⟩
      · exact .inl h2
      · exact .inr ⟨hadj _ h2, hadj _ h3⟩
    · exact .inr h1

/-- All endpoints of edges produced by the elimination loop come from
endpoints of the starting edge lists. -/
theorem elimLoop_endpoints :
    ∀ (l : List Vertex) (st : ElimSt) (S : List Vertex),
      (∀ e ∈ st.1, e.1 ∈ S ∧ e.2 ∈ S) → (∀ e ∈ st.2, e.1 ∈ S ∧ e.2 ∈ S) →
      ∀ e ∈ (elimLoop l st).1, e.1 ∈ S ∧ e.2 ∈ S := by
  intro l
  induction l with
  | nil => exact fun st S h1 _ e he => h1 e he
  | cons v rest ih =>
    intro st S h1 h2 e he
    simp only [elimLoop] at he
    have hadj : ∀ x ∈ adjList st.2 v, x ∈ S := by
      intro x hx
      rcases adjList_endpoint hx with ⟨f, hf, hx1 | hx1⟩
      · exact hx1 ▸ (h2 f hf).1
      · exact hx1 ▸ (h2 f hf).2
    refine ih _ S ?_ ?_ e he
    · intro f hf
      rcases elimStep_new1 hf with h3 | ⟨h3, h4, _⟩
      · exact h1 f h3
      · exact ⟨hadj _ h3, hadj _ h4⟩
    · intro f hf
      rcases (elimStep_new2 hf).1 with h3 | ⟨h3, h4, _⟩
      · exact h2 f h3
      · exact ⟨hadj _ h3, hadj _ h4⟩

/-- Core invariant induction: running the elimination loop over the
remaining vertices turns that very vertex order into a perfect elimination
ordering of the final accumulated edge list. -/
theorem elim_peo :
    ∀ (rest done : List Vertex) (C T : List Edge),
      (done ++ rest).Nodup →
      (∀ e ∈ T, e ∈ C) →
      (∀ e ∈ C, e ∈ T ∨ e.1 ∈ done ∨ e.2 ∈ done) →
      (∀ e ∈ T, e.1 ∉ done ∧ e.2 ∉ done) →
      (∀ e ∈ C, e.1 ∈ done ++ rest ∧ e.2 ∈ done ++ rest) →
      peo (elimLoop rest (C, T)).1 rest = true := by
  intro rest
  induction rest with
  | nil => intro done C T _ _ _ _ _; rfl
  | cons v rest' ih =>
    intro done C T h1 h2 h3 h4 h5
    have hvdone : v ∉ done := by
      have := (List.nodup_append.1 h1).2.2
      exact fun hv => this hv (List.mem_cons_self ..)
    have hrest'done : ∀ a ∈ rest', a ∉ done := by
      intro a ha hadone
      exact (List.nodup_append.1 h1).2.2 hadone (List.mem_cons_of_mem _ ha)
    have hvrest' : v ∉ rest' := by
      have := (List.nodup_append.1 h1).2.1
      exact (List.nodup_cons.1 this).1
    have hrest'nd : rest'.Nodup := (List.nodup_cons.1 (List.nodup_append.1 h1).2.1).2
    -- the state after eliminating `v`
    set adj := adjList T v with hadj
    set st1 := fillOuter adj adj (C, T) with hst1
    have hstep : elimStep (C, T) v =
        (st1.1, st1.2.filter fun e => ¬(v = e.1 ∨ v = e.2)) := rfl
    set C1 := st1.1 with hC1
    set T2 := st1.2.filter fun e => decide ¬(v = e.1 ∨ v = e.2) with hT2
    have hstep' : elimStep (C, T) v = (C1, T2) := hstep
    -- facts about adjacency-list members
    have hadjT : ∀ x ∈ adj, x ≠ v ∧ ((v, x) ∈ T ∨ (x, v) ∈ T) :=
      fun x hx => mem_adjList.1 hx
    have hadjdone : ∀ x ∈ adj, x ∉ done := by
      intro x hx
      rcases adjList_endpoint hx with ⟨f, hf, hx1 | hx1⟩
      · exact hx1 ▸ (h4 f hf).1
      · exact hx1 ▸ (h4 f hf).2
    have hadjS : ∀ x ∈ adj, x ∈ done ++ v :: rest' := by
      intro x hx
      rcases adjList_endpoint hx with ⟨f, hf, hx1 | hx1⟩
      · exact hx1 ▸ (h5 f (h2 f hf)).1
      · exact hx1 ▸ (h5 f (h2 f hf)).2
    -- invariants for the recursive call, with done' = done ++ [v]
    have h1' : ((done ++ [v]) ++ rest').Nodup := by
      rwa [List.append_assoc, List.singleton_append]
    have h2' : ∀ e ∈ T2, e ∈ C1 := by
      intro e he
      exact fillOuter_sub _ _ h2 e (List.mem_filter.1 he).1
    have hT1cases : ∀ e ∈ st1.2, e ∈ T2 ∨ e.1 ∈ done ++ [v] ∨ e.2 ∈ done ++ [v] := by
      intro e he
      by_cases hv : v = e.1 ∨ v = e.2
      · rcases hv with hv | hv
        · exact .inr (.inl (by rw [← hv]; exact List.mem_append_right _ (List.mem_singleton.2 rfl)))
        · exact .inr (.inr (by rw [← hv]; exact List.mem_append_right _ (List.mem_singleton.2 rfl)))
      · exact .inl (List.mem_filter.2 ⟨he, by rw [decide_eq_true_eq]; exact hv⟩)
    have h3' : ∀ e ∈ C1, e ∈ T2 ∨ e.1 ∈ done ++ [v] ∨ e.2 ∈ done ++ [v] := by
      intro e he
      rcases fillOuter_sync _ _ (fun f hf => .inl hf) e he with h6 | h6
      · rcases h3 e h6 with h7 | h7 | h7
        · exact hT1cases e (fillOuter_mono2 _ _ h7)
        · exact .inr (.inl (List.mem_append_left _ h7))
        · exact .inr (.inr (List.mem_append_left _ h7))
      · exact hT1cases e h6
    have h4' : ∀ e ∈ T2, e.1 ∉ done ++ [v] ∧ e.2 ∉ done ++ [v] := by
      intro e he
      rcases List.mem_filter.1 he with ⟨he1, he2⟩
      rw [decide_eq_true_eq] at he2
      push_neg at he2
      have : (e.1 ∉ done ∧ e.2 ∉ done) := by
        rcases fillOuter_new2 _ _ he1 with h6 | ⟨x, hx, y, hy, hexy, _⟩
        · exact h4 e h6
        · rw [hexy]; exact ⟨hadjdone x hx, hadjdone y hy⟩
      constructor
      · intro hmem
        rcases List.mem_append.1 hmem with hmem | hmem
        · exact this.1 hmem
        · exact he2.1 (List.mem_singleton.1 hmem).symm
      · intro hmem
        rcases List.mem_append.1 hmem with hmem | hmem
        · exact this.2 hmem
        · exact he2.2 (List.mem_singleton.1 hmem).symm
    have h5' : ∀ e ∈ C1, e.1 ∈ (done ++ [v]) ++ rest' ∧ e.2 ∈ (done ++ [v]) ++ rest' := by
      intro e he
      rw [List.append_assoc, List.singleton_append]
      rcases fillOuter_new1 _ _ he with h6 | ⟨x, hx, y, hy, hexy, _⟩
      · exact h5 e h6
      · rw [hexy]; exact ⟨hadjS x hx, hadjS y hy⟩
    -- the recursive call
    have hpeo' := ih (done ++ [v]) C1 T2 h1' h2' h3' h4' h5'
    -- assemble
    simp only [elimLoop, hstep', peo, Bool.and_eq_true]
    refine ⟨?_, hpeo'⟩
    set finalC := (elimLoop rest' (C1, T2)).1 with hfinal
    -- every vertex of the filtered list is in `adj`
    have hsubadj : ∀ a ∈ rest'.filter (adjb finalC v), a ∈ adj := by
      intro a ha
      rcases List.mem_filter.1 ha with ⟨ha1, ha2⟩
      rcases adjb_iff.1 ha2 with ⟨hva, hmem⟩
      have havdone : a ∉ done := hrest'done a ha1
      have hane : a ≠ v := fun h => hvrest' (h ▸ ha1)
      -- the witnessing edge of finalC is already in C
      have hedgeC : (v, a) ∈ C ∨ (a, v) ∈ C := by
        have hW : ∀ f, f ∈ finalC → f = (v, a) ∨ f = (a, v) → f ∈ C1 := by
          intro f hf hor
          rcases elimLoop_avoid rest' (C1, T2) (done ++ [v]) h4' f hf with h6 | h6
          · exact h6
          · exfalso
            rcases hor with hor | hor
            · exact h6.1 (by rw [hor]; exact List.mem_append_right _ (List.mem_singleton.2 rfl))
            · exact h6.2 (by rw [hor]; exact List.mem_append_right _ (List.mem_singleton.2 rfl))
        have hC1toC : ∀ f, f ∈ C1 → f = (v, a) ∨ f = (a, v) → f ∈ C := by
          intro f hf hor
          rcases fillOuter_new1 _ _ hf with h6 | ⟨x, hx, y, hy, hexy, _⟩
          · exact h6
          · exfalso
            rcases hor with hor | hor
            · rw [hor] at hexy
              exact (hadjT x hx).1 (by injection hexy with hx1 hy1; exact hx1.symm)
            · rw [hor] at hexy
              exact (hadjT y hy).1 (by injection hexy with hx1 hy1; exact hy1.symm)
        rcases hmem with hmem | hmem
        · exact .inl (hC1toC _ (hW _ hmem (.inl rfl)) (.inl rfl))
        · exact .inr (hC1toC _ (hW _ hmem (.inr rfl)) (.inr rfl))
      -- and therefore in T, by invariant H3
      have hedgeT : (v, a) ∈ T ∨ (a, v) ∈ T := by
        rcases hedgeC with hmem | hmem
        · rcases h3 _ hmem with h6 | h6 | h6
          · exact .inl h6
          · exact absurd h6 hvdone
          · exact absurd h6 havdone
        · rcases h3 _ hmem with h6 | h6 | h6
          · exact .inr h6
          · exact absurd h6 havdone
          · exact absurd h6 hvdone
      exact mem_adjList.2 ⟨hane, hedgeT⟩
    -- the filtered later-neighbour list is a clique in finalC
    refine cliqueb_of (List.Nodup.filter _ hrest'nd) ?_
    intro a ha b hb hab
    have haadj := hsubadj a ha
    have hbadj := hsubadj b hb
    exact adjb_mono (fun f hf => elimLoop_mono1 _ _ hf) (fill_clique haadj hbadj hab)

/-- The elimination game over any ordering of all vertices of `E` yields a
chordal edge list: the elimination order itself is a perfect elimination
ordering of the result. -/
theorem elimGame_chordal {E : List Edge} {order : List Vertex}
    (h : List.Perm order (verts E)) : chordalb (elimGame E order) = true := by
  have hordernd : order.Nodup := h.nodup_iff.2 (List.nodup_dedup _)
  have hmemE : ∀ x ∈ verts E, x ∈ order := fun x hx => h.mem_iff.2 hx
  have hends : ∀ e ∈ E, e.1 ∈ order ∧ e.2 ∈ order := by
    intro e he
    exact ⟨hmemE _ (mem_verts.2 ⟨e, he, .inl rfl⟩),
           hmemE _ (mem_verts.2 ⟨e, he, .inr rfl⟩)⟩
  have hpeo : peo (elimGame E order) order = true := by
    refine elim_peo order [] E E (by simpa using hordernd)
      (fun e he => he) (fun e he => .inl he)
      (fun e _ => ⟨List.not_mem_nil _, List.not_mem_nil _⟩) ?_
    intro e he
    simpa using hends e he
  have hperm : List.Perm order (verts (elimGame E order)) := by
    refine (List.perm_ext_iff_of_nodup hordernd (List.nodup_dedup _)).2 ?_
    intro x
    constructor
    · intro hx
      rcases mem_verts.1 (h.subset hx) with ⟨e, he, hxe⟩
      exact mem_verts.2 ⟨e, elimLoop_mono1 _ _ he, hxe⟩
    · intro hx
      rcases mem_verts.1 hx with ⟨e, he, hxe⟩
      have := elimLoop_endpoints order (E, E) order hends hends e he
      rcases hxe with hxe | hxe
      · exact hxe ▸ this.1
      · exact hxe ▸ this.2
  exact List.any_eq_true.2 ⟨order, List.mem_permutations'.2 hperm, hpeo⟩

/-! ## Lemmas about moralization -/

theorem pairMem_mono {x y : Vertex} {l1 l2 : List Edge}
    (h : ∀ e ∈ l1, e ∈ l2) (hp : pairMem x y l1) : pairMem x y l2 := by
  rcases hp with hp | hp
  · exact .inl (h _ hp)
  · exact .inr (h _ hp)

theorem marryPair_cases (p1 p2 : Vertex) (el : List Edge) :
    marryPair p1 p2 el = el ∨
      (p1 ≠ p2 ∧ (p2, p1) ∉ el ∧ marryPair p1 p2 el = el ++ [(p1, p2)]) := by
  unfold marryPair
  split
  · next h => exact .inr ⟨h.1, h.2.2, rfl⟩
  · exact .inl rfl

theorem marryPair_mono {p1 p2 : Vertex} {el : List Edge} {e : Edge} (h : e ∈ el) :
    e ∈ marryPair p1 p2 el := by
  rcases marryPair_cases p1 p2 el with hc | ⟨_, _, hc⟩ <;> rw [hc]
  · exact h
  · exact List.mem_append_left _ h

theorem marryInner_mono {p1 : Vertex} {e : Edge} :
    ∀ (l : List Vertex) (el : List Edge), e ∈ el → e ∈ marryInner p1 l el := by
  intro l
  induction l with
  | nil => exact fun el h => h
  | cons p2 rest ih =>
    intro el h
    simp only [marryInner]
    exact ih _ (marryPair_mono h)

theorem marryOuter_mono {ps : List Vertex} {e : Edge} :
    ∀ (l : List Vertex) (el : List Edge), e ∈ el → e ∈ marryOuter ps l el := by
  intro l
  induction l with
  | nil => exact fun el h => h
  | cons p1 rest ih =>
    intro el h
    simp only [marryOuter]
    exact ih _ (marryInner_mono _ _ h)

theorem marryStep_mono {ps : List Vertex} {el : List Edge} {e : Edge}
    (h : e ∈ el) : e ∈ marryStep el ps :=
  marryOuter_mono _ _ h

theorem marryPair_new {p1 p2 : Vertex} {el : List Edge} {e : Edge}
    (h : e ∈ marryPair p1 p2 el) : e ∈ el ∨ (e = (p1, p2) ∧ p1 ≠ p2) := by
  rcases marryPair_cases p1 p2 el with hc | ⟨hne, _, hc⟩ <;> rw [hc] at h
  · exact .inl h
  · rcases List.mem_append.1 h with h | h
    · exact .inl h
    · exact .inr ⟨List.mem_singleton.1 h, hne⟩

theorem marryInner_new {p1 : Vertex} {e : Edge} :
    ∀ (l : List Vertex) (el : List Edge), e ∈ marryInner p1 l el →
      e ∈ el ∨ ∃ p2 ∈ l, e = (p1, p2) ∧ p1 ≠ p2 := by
  intro l
  induction l with
  | nil => exact fun el h => .inl h
  | cons p2 rest ih =>
    intro el h
    simp only [marryInner] at h
    rcases ih _ h with h1 | ⟨q, hq, he⟩
    · rcases marryPair_new h1 with h2 | h2
      · exact .inl h2
      · exact .inr ⟨p2, List.mem_cons_self .., h2⟩
    · exact .inr ⟨q, List.mem_cons_of_mem _ hq, he⟩

theorem marryOuter_new {ps : List Vertex} {e : Edge} :
    ∀ (l : List Vertex) (el : List Edge), e ∈ marryOuter ps l el →
      e ∈ el ∨ ∃ x ∈ l, ∃ y ∈ ps, e = (x, y) ∧ x ≠ y := by
  intro l
  induction l with
  | nil => exact fun el h => .inl h
  | cons p1 rest ih =>
    intro el h
    simp only [marryOuter] at h
    rcases ih _ h with h1 | ⟨x, hx, hrest⟩
    · rcases marryInner_new _ _ h1 with h2 | ⟨y, hy, he⟩
      · exact .inl h2
      · exact .inr ⟨p1, List.mem_cons_self .., y, hy, he⟩
    · exact .inr ⟨x, List.mem_cons_of_mem _ hx, hrest⟩

theorem marryStep_new {ps : List Vertex} {el : List Edge} {e : Edge}
    (h : e ∈ marryStep el ps) :
    e ∈ el ∨ (e.1 ∈ ps ∧ e.2 ∈ ps ∧ e.1 ≠ e.2) := by
  rcases marryOuter_new _ _ h with h1 | ⟨x, hx, y, hy, he, hxy⟩
  · exact .inl h1
  · subst he
    exact .inr ⟨hx, hy, hxy⟩

theorem marryPair_ensures {p1 p2 : Vertex} {el : List Edge} (hne : p1 ≠ p2) :
    pairMem p1 p2 (marryPair p1 p2 el) := by
  unfold marryPair
  split
  · exact .inl (List.mem_append_right _ (List.mem_singleton.2 rfl))
  · next h =>
    rcases not_and_or.1 h with h1 | h1
    · exact absurd hne h1
    · rcases not_and_or.1 h1 with h2 | h2
      · exact .inl (not_not.1 h2)
      · exact .inr (not_not.1 h2)

theorem marryInner_ensures {p1 : Vertex} :
    ∀ (l : List Vertex) (el : List Edge) (p2 : Vertex), p2 ∈ l → p1 ≠ p2 →
      pairMem p1 p2 (marryInner p1 l el) := by
  intro l
  induction l with
  | nil => intro el p2 h; exact absurd h (List.not_mem_nil p2)
  | cons b rest ih =>
    intro el p2 h hne
    simp only [marryInner]
    rcases List.mem_cons.1 h with h | h
    · subst h
      exact pairMem_mono (fun e he => marryInner_mono _ _ he) (marryPair_ensures hne)
    · exact ih _ _ h hne

theorem marryOuter_ensures {ps : List Vertex} :
    ∀ (l : List Vertex) (el : List Edge) (p1 p2 : Vertex), p1 ∈ l → p2 ∈ ps →
      p1 ≠ p2 → pairMem p1 p2 (marryOuter ps l el) := by
  intro l
  induction l with
  | nil => intro el p1 p2 h; exact absurd h (List.not_mem_nil p1)
  | cons b rest ih =>
    intro el p1 p2 h1 h2 hne
    simp only [marryOuter]
    rcases List.mem_cons.1 h1 with h1 | h1
    · subst h1
      exact pairMem_mono (fun e he => marryOuter_mono _ _ he)
        (marryInner_ensures _ _ _ h2 hne)
    · exact ih _ _ _ h1 h2 hne

theorem marryStep_ensures {ps : List Vertex} {el : List Edge} {p1 p2 : Vertex}
    (h1 : p1 ∈ ps) (h2 : p2 ∈ ps) (hne : p1 ≠ p2) :
    pairMem p1 p2 (marryStep el ps) :=
  marryOuter_ensures _ _ _ _ h1 h2 hne

theorem pairMem_marryStep {ps : List Vertex} {el : List Edge} {x y : Vertex} :
    pairMem x y (marryStep el ps) ↔
      pairMem x y el ∨ (x ≠ y ∧ x ∈ ps ∧ y ∈ ps) := by
  constructor
  · intro h
    rcases h with h | h
    · rcases marryStep_new h with h1 | ⟨h1, h2, h3⟩
      · exact .inl (.inl h1)
      · exact .inr ⟨h3, h1, h2⟩
    · rcases marryStep_new h with h1 | ⟨h1, h2, h3⟩
      · exact .inl (.inr h1)
      · exact .inr ⟨fun hxy => h3 (hxy ▸ rfl), h2, h1⟩
  · intro h
    rcases h with h | ⟨hne, hx, hy⟩
    · exact pairMem_mono (fun e he => marryStep_mono he) h
    · exact marryStep_ensures hx hy hne

theorem moralLoop_sub {bn : BayesNet} :
    ∀ (l : List Vertex) (el M : List Edge), moralLoop bn el l = .ok M →
      ∀ e ∈ el, e ∈ M := by
  intro l
  induction l with
  | nil =>
    intro el M h
    cases h
    exact fun e he => he
  | cons n rest ih =>
    intro el M h
    simp only [moralLoop] at h
    cases hp : parentsOf bn n with
    | none => rw [hp] at h; cases h
    | some ps =>
      rw [hp] at h
      exact fun e he => ih _ _ h e (marryStep_mono he)

theorem moralLoop_mem {bn : BayesNet} :
    ∀ (l : List Vertex) (el M : List Edge), moralLoop bn el l = .ok M →
      ∀ x y : Vertex, (pairMem x y M ↔ pairMem x y el ∨
        (x ≠ y ∧ ∃ n ∈ l, ∃ ps, parentsOf bn n = some ps ∧ x ∈ ps ∧ y ∈ ps)) := by
  intro l
  induction l with
  | nil =>
    intro el M h x y
    cases h
    simp
  | cons n rest ih =>
    intro el M h x y
    simp only [moralLoop] at h
    cases hp : parentsOf bn n with
    | none => rw [hp] at h; cases h
    | some ps =>
      rw [hp] at h
      have ihh := ih _ _ h x y
      constructor
      · intro hm
        rcases ihh.1 hm with h1 | ⟨hxy, m, hm2, qs, hq, hx, hy⟩
        · rcases pairMem_marryStep.1 h1 with h2 | ⟨hxy, hx, hy⟩
          · exact .inl h2
          · exact .inr ⟨hxy, n, List.mem_cons_self .., ps, hp, hx, hy⟩
        · exact .inr ⟨hxy, m, List.mem_cons_of_mem _ hm2, qs, hq, hx, hy⟩
      · intro hr
        rcases hr with h1 | ⟨hxy, m, hm2, qs, hq, hx, hy⟩
        · exact ihh.2 (.inl (pairMem_marryStep.2 (.inl h1)))
        · rcases List.mem_cons.1 hm2 with h3 | h3
          · subst h3
            rw [hp] at hq
            cases hq
            exact ihh.2 (.inl (pairMem_marryStep.2 (.inr ⟨hxy, hx, hy⟩)))
          · exact ihh.2 (.inr ⟨hxy, m, h3, qs, hq, hx, hy⟩)

theorem moralLoop_error {bn : BayesNet} :
    ∀ (l : List Vertex) (el : List Edge) (n : Vertex), n ∈ l →
      parentsOf bn n = none → moralLoop bn el l = .error .keyError := by
  intro l
  induction l with
  | nil => intro el n h; exact absurd h (List.not_mem_nil n)
  | cons m rest ih =>
    intro el n h hn
    simp only [moralLoop]
    cases hp : parentsOf bn m with
    | none => rfl
    | some ps =>
      rcases List.mem_cons.1 h with h1 | h1
      · subst h1; rw [hp] at hn; cases hn
      · exact ih _ _ h1 hn

theorem moral_sub {bn : BayesNet} {M : List Edge}
    (h : get_moralized_edge_list bn = .ok M) : ∀ e ∈ bn.E, e ∈ M :=
  moralLoop_sub _ _ _ h

/-! ## Bridging lemmas -/

/-- As long as `bn.E` is contained in `M`, the truthiness fallback of
`is_chordal` cannot change the verdict on `M`. -/
theorem is_chordal_some_of_sub {bn : BayesNet} {M : List Edge}
    (h : ∀ e ∈ bn.E, e ∈ M) : bn.is_chordal (some M) = chordalb M := by
  show (if M.isEmpty = true then chordalb bn.E else chordalb M) = chordalb M
  by_cases hM : M.isEmpty
  · rw [if_pos hM]
    have hMnil : M = [] := by
      cases M with
      | nil => rfl
      | cons a l => simp [List.isEmpty] at hM
    subst hMnil
    have hEnil : bn.E = [] := by
      cases hE : bn.E with
      | nil => rfl
      | cons a l => exact absurd (h a (by rw [hE]; exact List.mem_cons_self ..)) (List.not_mem_nil a)
    rw [hEnil]
  · rw [if_neg hM]

theorem triangulate_sup {E : List Edge} : ∀ e ∈ E, e ∈ triangulate E := by
  intro e he
  unfold triangulate
  split
  · exact he
  · exact elimLoop_mono1 _ _ he

theorem triangulate_chordal (E : List Edge) : chordalb (triangulate E) = true := by
  unfold triangulate
  split
  · next h => exact h
  · exact elimGame_chordal (degreeOrder_perm E)

/-- The no-override call of `get_chordal_nx` is exactly `triangulate`
applied to the moral edge list. -/
theorem get_chordal_nx_eq_triangulate {bn : BayesNet} {M : List Edge}
    (h : get_moralized_edge_list bn = .ok M) :
    get_chordal_nx bn none none = .ok (triangulate M) := by
  unfold get_chordal_nx
  rw [h]
  show (if bn.is_chordal (some M) = true then Except.ok M
        else Except.ok (elimGame M (degreeOrder M))) = Except.ok (triangulate M)
  rw [is_chordal_some_of_sub (moral_sub h)]
  unfold triangulate
  by_cases hc : chordalb M = true
  · rw [if_pos hc, if_pos hc]
  · rw [if_neg hc, if_neg hc]

/-! ## Preservation of the one-orientation-per-pair invariant -/

theorem distinctOrient_append {l : List Edge} {a b : Vertex}
    (h : distinctOrient l) (hne : a ≠ b) (hba : (b, a) ∉ l) :
    distinctOrient (l ++ [(a, b)]) := by
  intro e he f hf h1 h2
  rcases List.mem_append.1 he with he | he <;>
    rcases List.mem_append.1 hf with hf | hf
  · exact h e he f hf h1 h2
  · exfalso
    rw [List.mem_singleton.1 hf] at h1 h2
    apply hba
    have : e = (b, a) := Prod.ext h1 h2
    exact this ▸ he
  · exfalso
    rw [List.mem_singleton.1 he] at h1 h2
    apply hba
    have : f = (b, a) := Prod.ext h2.symm h1.symm
    exact this ▸ hf
  · rw [List.mem_singleton.1 he] at h1 ⊢
    rw [List.mem_singleton.1 hf] at h1
    exact absurd h1 hne

theorem marryPair_distinct {p1 p2 : Vertex} {el : List Edge}
    (h : distinctOrient el) : distinctOrient (marryPair p1 p2 el) := by
  rcases marryPair_cases p1 p2 el with hc | ⟨hne, hba, hc⟩ <;> rw [hc]
  · exact h
  · exact distinctOrient_append h hne hba

theorem marryInner_distinct {p1 : Vertex} :
    ∀ (l : List Vertex) (el : List Edge), distinctOrient el →
      distinctOrient (marryInner p1 l el) := by
  intro l
  induction l with
  | nil => exact fun el h => h
  | cons p2 rest ih =>
    intro el h
    simp only [marryInner]
    exact ih _ (marryPair_distinct h)

theorem marryOuter_distinct {ps : List Vertex} :
    ∀ (l : List Vertex) (el : List Edge), distinctOrient el →
      distinctOrient (marryOuter ps l el) := by
  intro l
  induction l with
  | nil => exact fun el h => h
  | cons p1 rest ih =>
    intro el h
    simp only [marryOuter]
    exact ih _ (marryInner_distinct _ _ h)

theorem moralLoop_distinct {bn : BayesNet} :
    ∀ (l : List Vertex) (el M : List Edge), distinctOrient el →
      moralLoop bn el l = .ok M → distinctOrient M := by
  intro l
  induction l with
  | nil =>
    intro el M h hM
    cases hM
    exact h
  | cons n rest ih =>
    intro el M h hM
    simp only [moralLoop] at hM
    cases hp : parentsOf bn n with
    | none => rw [hp] at hM; cases hM
    | some ps =>
      rw [hp] at hM
      exact ih _ _ (marryOuter_distinct _ _ h) hM

theorem fillPair_distinct {a1 a2 : Vertex} {st : ElimSt}
    (h : distinctOrient st.1) : distinctOrient (fillPair a1 a2 st).1 := by
  unfold fillPair
  split
  · next hcond => exact distinctOrient_append h hcond.1 hcond.2.2
  · exact h

theorem fillInner_distinct {a1 : Vertex} :
    ∀ (l : List Vertex) (st : ElimSt), distinctOrient st.1 →
      distinctOrient (fillInner a1 l st).1 := by
  intro l
  induction l with
  | nil => exact fun st h => h
  | cons a2 rest ih =>
    intro st h
    simp only [fillInner]
    exact ih _ (fillPair_distinct h)

theorem fillOuter_distinct {adj : List Vertex} :
    ∀ (l : List Vertex) (st : ElimSt), distinctOrient st.1 →
      distinctOrient (fillOuter adj l st).1 := by
  intro l
  induction l with
  | nil => exact fun st h => h
  | cons a1 rest ih =>
    intro st h
    simp only [fillOuter]
    exact ih _ (fillInner_distinct _ _ h)

theorem elimLoop_distinct :
    ∀ (l : List Vertex) (st : ElimSt), distinctOrient st.1 →
      distinctOrient (elimLoop l st).1 := by
  intro l
  induction l with
  | nil => exact fun st h => h
  | cons v rest ih =>
    intro st h
    simp only [elimLoop]
    exact ih _ (fillOuter_distinct _ _ h)

theorem elimGame_distinct {E : List Edge} {order : List Vertex}
    (h : distinctOrient E) : distinctOrient (elimGame E order) :=
  elimLoop_distinct _ _ h

theorem triangulate_distinct {E : List Edge} (h : distinctOrient E) :
    distinctOrient (triangulate E) := by
  unfold triangulate
  split
  · exact h
  · exact elimGame_distinct h

/-! ## Branch lemmas for `get_chordal_nx` -/

/-- The fast path: whatever the overrides, a moral edge list accepted by
`is_chordal` is returned unchanged. -/
theorem get_chordal_nx_guard {bn : BayesNet} {M : List Edge}
    (h1 : get_moralized_edge_list bn = .ok M)
    (h2 : bn.is_chordal (some M) = true) (v : Option (List Vertex))
    (e : Option (List Edge)) : get_chordal_nx bn v e = .ok M := by
  unfold get_chordal_nx
  rw [h1]
  show (if bn.is_chordal (some M) = true then Except.ok M
        else if (truthy v && truthy e) = true then
          Except.ok (elimGame (e.getD []) (v.getD []))
        else Except.ok (elimGame M (degreeOrder M))) = Except.ok M
  rw [h2]
  simp

/-- A falsy `v` or `e` behaves exactly like no override at all. -/
theorem get_chordal_nx_falsy {bn : BayesNet} {v : Option (List Vertex)}
    {e : Option (List Edge)} (hve : (truthy v && truthy e) = false) :
    get_chordal_nx bn v e = get_chordal_nx bn none none := by
  unfold get_chordal_nx
  cases hm : get_moralized_edge_list bn with
  | error er => rfl
  | ok M =>
    show (if bn.is_chordal (some M) = true then Except.ok M
          else if (truthy v && truthy e) = true then
            Except.ok (elimGame (e.getD []) (v.getD []))
          else Except.ok (elimGame M (degreeOrder M))) =
        (if bn.is_chordal (some M) = true then Except.ok M
          else Except.ok (elimGame M (degreeOrder M)))
    rw [hve]
    simp

/-- Both overrides truthy and a rejected moral graph: the elimination game
runs on the override edge list with the override order — the moral edges
are discarded. -/
theorem get_chordal_nx_override {bn : BayesNet} {M : List Edge}
    {v : Option (List Vertex)} {e : Option (List Edge)}
    (hm : get_moralized_edge_list bn = .ok M)
    (hc : bn.is_chordal (some M) = false)
    (hv : truthy v = true) (he : truthy e = true) :
    get_chordal_nx bn v e = .ok (elimGame (e.getD []) (v.getD [])) := by
  unfold get_chordal_nx
  rw [hm]
  show (if bn.is_chordal (some M) = true then Except.ok M
        else if (truthy v && truthy e) = true then
          Except.ok (elimGame (e.getD []) (v.getD []))
        else Except.ok (elimGame M (degreeOrder M))) = _
  rw [hc, hv, he]
  simp

/-! ## The claims -/

/-- C1: for every `BayesNet`, the edge set returned by `get_chordal_nx()`
with no overrides is chordal — `is_chordal` applied to the triangulated
result returns `true`, including when the moral graph was not chordal and
fill-in elimination ran. -/
theorem C1_triangulated_result_is_chordal (bn : BayesNet) (R : List Edge)
    (h : get_chordal_nx bn none none = .ok R) :
    bn.is_chordal (some R) = true := by
  cases hm : get_moralized_edge_list bn with
  | error er =>
    unfold get_chordal_nx at h
    rw [hm] at h
    cases h
  | ok M =>
    rw [get_chordal_nx_eq_triangulate hm] at h
    injection h with h
    subst h
    rw [is_chordal_some_of_sub (fun f hf => triangulate_sup _ (moral_sub hm f hf))]
    exact triangulate_chordal M

/-- Witness for C1 at `bn5`, whose moral graph holds a chordless 4-cycle:
elimination adds the diagonal `(1,3)` and the result passes `is_chordal`. -/
theorem C1_witness :
    bn5.is_chordal (some [(1, 2), (2, 3), (3, 4), (5, 4), (1, 5), (3, 5), (1, 3)]) = true :=
  C1_triangulated_result_is_chordal bn5 _ (by decide)

/-- C2 counterexample: with truthy overrides and a non-chordal moral graph,
`chordal_E` is replaced by the override list `e`, so the moral edge `(1,2)`
of `bn5` appears in no orientation in the returned edge set. -/
theorem C2_counterexample :
    get_moralized_edge_list bn5 = .ok [(1, 2), (2, 3), (3, 4), (5, 4), (1, 5), (3, 5)] ∧
    get_chordal_nx bn5 (some [7]) (some [(7, 6)]) = .ok [(7, 6)] ∧
    ((1, 2) : Edge) ∈ [((1, 2) : Edge), (2, 3), (3, 4), (5, 4), (1, 5), (3, 5)] ∧
    ((1, 2) : Edge) ∉ [((7, 6) : Edge)] ∧ ((2, 1) : Edge) ∉ [((7, 6) : Edge)] :=
  ⟨by decide, by decide, by decide, by decide, by decide⟩

/-- C2 as amended: the moral edges are contained in the result of every
call in which the override path is not taken (in particular every
no-override call); when both overrides are truthy and the moral graph is
rejected, the result instead contains every edge of the override list `e`. -/
theorem C2_amended_superset :
    (∀ (bn : BayesNet) (M R : List Edge), get_moralized_edge_list bn = .ok M →
      get_chordal_nx bn none none = .ok R → ∀ f ∈ M, f ∈ R) ∧
    (∀ (bn : BayesNet) (M : List Edge) (v : List Vertex) (e R : List Edge),
      get_moralized_edge_list bn = .ok M → bn.is_chordal (some M) = false →
      truthy (some v) = true → truthy (some e) = true →
      get_chordal_nx bn (some v) (some e) = .ok R → ∀ f ∈ e, f ∈ R) := by
  constructor
  · intro bn M R hm hR f hf
    rw [get_chordal_nx_eq_triangulate hm] at hR
    injection hR with hR
    subst hR
    exact triangulate_sup _ hf
  · intro bn M v e R hm hc hv he hR f hf
    rw [get_chordal_nx_override hm hc hv he] at hR
    injection hR with hR
    subst hR
    exact elimLoop_mono1 _ _ hf

/-- Witness for the amended C2 at `bn5`: every moral edge survives the
no-override triangulation. -/
theorem C2_witness :
    ((1, 2) : Edge) ∈ [((1, 2) : Edge), (2, 3), (3, 4), (5, 4), (1, 5), (3, 5), (1, 3)] :=
  C2_amended_superset.1 bn5 [(1, 2), (2, 3), (3, 4), (5, 4), (1, 5), (3, 5)]
    [(1, 2), (2, 3), (3, 4), (5, 4), (1, 5), (3, 5), (1, 3)]
    (by decide) (by decide) (1, 2) (by decide)

/-- C3: if the moral edge list is accepted by `is_chordal`, the no-override
`get_chordal_nx` returns exactly that list, with no fill-in added. -/
theorem C3_no_op_on_chordal (bn : BayesNet) (M : List Edge)
    (h1 : get_moralized_edge_list bn = .ok M)
    (h2 : bn.is_chordal (some M) = true) :
    get_chordal_nx bn none none = .ok M :=
  get_chordal_nx_guard h1 h2 none none

/-- Witness for C3 at the already-chordal triangle network `bnTri`. -/
theorem C3_witness : get_chordal_nx bnTri none none = .ok [(1, 3), (2, 3), (1, 2)] :=
  C3_no_op_on_chordal bnTri [(1, 3), (2, 3), (1, 2)] (by decide) (by decide)

/-- C4: moralization returns the network's edges plus one edge per
unordered pair of distinct parents of some vertex (never duplicating an
orientation already present); on the network `1 → 3 ← 2` it returns
exactly `[(1,3), (2,3), (1,2)]`. -/
theorem C4_moralization :
    (∀ (bn : BayesNet) (M : List Edge), get_moralized_edge_list bn = .ok M →
      ∀ x y : Vertex, (pairMem x y M ↔ pairMem x y bn.E ∨
        (x ≠ y ∧ ∃ n ∈ bn.V, ∃ ps, parentsOf bn n = some ps ∧ x ∈ ps ∧ y ∈ ps))) ∧
    get_moralized_edge_list bnTri = .ok [(1, 3), (2, 3), (1, 2)] :=
  ⟨fun _ _ h => moralLoop_mem _ _ _ h, rfl⟩

/-- Witness for C4: the parent pair `(1,2)` of vertex `3` is married. -/
theorem C4_witness : pairMem 1 2 [(1, 3), (2, 3), (1, 2)] :=
  (C4_moralization.1 bnTri [(1, 3), (2, 3), (1, 2)] (by decide) 1 2).2
    (.inr ⟨by decide, 3, by decide, [1, 2], rfl, by decide, by decide⟩)

/-- C5 counterexample: because of `if not edge_list: edge_list = self.E`,
passing an **empty** edge list to `is_chordal` falls back to the network's
own edge list; on `bn5` (whose `E` is a chordless 5-cycle) the call
returns `false`, not `true`. -/
theorem C5_counterexample : bn5.is_chordal (some []) = false := by decide

/-- C5 as amended: `is_chordal` on an empty edge list reports the
chordality of the network's own edge list `self.E`; it returns `true`
whenever the network has no edges. -/
theorem C5_amended (bn : BayesNet) :
    bn.is_chordal (some []) = chordalb bn.E ∧
    (bn.E = [] → bn.is_chordal (some []) = true) := by
  refine ⟨rfl, fun h => ?_⟩
  have h0 : bn.is_chordal (some []) = chordalb bn.E := rfl
  rw [h0, h]
  rfl

/-- Witness for the amended C5 on the edgeless network. -/
theorem C5_witness : bnEmpty.is_chordal (some []) = true :=
  (C5_amended bnEmpty).2 rfl

/-- C6: the no-override `get_chordal_nx` is `triangulate` of the moral
edge list, and `triangulate` is idempotent as an edge-list transformation:
re-triangulating an already-chordal result changes nothing. -/
theorem C6_idempotent :
    (∀ (bn : BayesNet) (M : List Edge), get_moralized_edge_list bn = .ok M →
      get_chordal_nx bn none none = .ok (triangulate M)) ∧
    ∀ E : List Edge, triangulate (triangulate E) = triangulate E := by
  refine ⟨fun _ _ h => get_chordal_nx_eq_triangulate h, fun E => ?_⟩
  show (if chordalb (triangulate E) = true then triangulate E
        else elimGame (triangulate E) (degreeOrder (triangulate E))) = triangulate E
  rw [triangulate_chordal E]
  simp

/-- Witness for C6 at `bn5`. -/
theorem C6_witness :
    get_chordal_nx bn5 none none =
      .ok (triangulate [(1, 2), (2, 3), (3, 4), (5, 4), (1, 5), (3, 5)]) :=
  C6_idempotent.1 bn5 _ rfl

/-- C7 counterexample: an override edge list containing both orientations
of a pair is copied verbatim into the produced edge list, which therefore
contains both `(9,8)` and `(8,9)`. -/
theorem C7_counterexample :
    get_chordal_nx bn5 (some [9]) (some [(9, 8), (8, 9)]) = .ok [(9, 8), (8, 9)] ∧
    ¬ distinctOrient [((9, 8) : Edge), (8, 9)] :=
  ⟨by decide, by decide⟩

/-- C7 as amended: the marriage and fill-in insertions themselves never
create a second orientation; every produced edge list satisfies the
invariant provided the starting list (`self.E`, or the override `e`)
already does. -/
theorem C7_amended :
    (∀ (bn : BayesNet) (M : List Edge), distinctOrient bn.E →
      get_moralized_edge_list bn = .ok M → distinctOrient M) ∧
    (∀ (bn : BayesNet) (R : List Edge), distinctOrient bn.E →
      get_chordal_nx bn none none = .ok R → distinctOrient R) ∧
    (∀ (bn : BayesNet) (v : List Vertex) (e R : List Edge),
      distinctOrient bn.E → distinctOrient e →
      get_chordal_nx bn (some v) (some e) = .ok R → distinctOrient R) := by
  have part1 : ∀ (bn : BayesNet) (M : List Edge), distinctOrient bn.E →
      get_moralized_edge_list bn = .ok M → distinctOrient M :=
    fun bn M hE hm => moralLoop_distinct _ _ _ hE hm
  have part2 : ∀ (bn : BayesNet) (R : List Edge), distinctOrient bn.E →
      get_chordal_nx bn none none = .ok R → distinctOrient R := by
    intro bn R hE hR
    cases hm : get_moralized_edge_list bn with
    | error er =>
      unfold get_chordal_nx at hR
      rw [hm] at hR
      cases hR
    | ok M =>
      rw [get_chordal_nx_eq_triangulate hm] at hR
      injection hR with hR
      subst hR
      exact triangulate_distinct (part1 bn M hE hm)
  refine ⟨part1, part2, ?_⟩
  intro bn v e R hE he hR
  cases hm : get_moralized_edge_list bn with
  | error er =>
    unfold get_chordal_nx at hR
    rw [hm] at hR
    cases hR
  | ok M =>
    by_cases hc : bn.is_chordal (some M) = true
    · rw [get_chordal_nx_guard hm hc] at hR
      injection hR with hR
      subst hR
      exact part1 bn _ hE hm
    · have hc' : bn.is_chordal (some M) = false := by
        cases hb : bn.is_chordal (some M)
        · rfl
        · exact absurd hb hc
      cases hve : (truthy (some v) && truthy (some e)) with
      | false =>
        rw [get_chordal_nx_falsy hve] at hR
        exact part2 bn R hE hR
      | true =>
        rw [Bool.and_eq_true] at hve
        obtain ⟨hv1, he1⟩ := hve
        rw [get_chordal_nx_override hm hc' hv1 he1] at hR
        injection hR with hR
        subst hR
        exact elimGame_distinct he

/-- Witness for the amended C7 at `bnTri`. -/
theorem C7_witness : distinctOrient [((1, 3) : Edge), (2, 3), (1, 2)] :=
  C7_amended.1 bnTri [(1, 3), (2, 3), (1, 2)] (by decide) (by decide)

/-- C8 counterexample: a vertex entry missing `vals` (but with `parents`
present) raises nothing — moralization and triangulation run to completion,
because `vals` is never read. -/
theorem C8_counterexample :
    valsOf bnNoVals 1 = none ∧ (1 : Vertex) ∈ bnNoVals.V ∧
    get_moralized_edge_list bnNoVals = .ok [] ∧
    get_chordal_nx bnNoVals none none = .ok [] :=
  ⟨rfl, by decide, by decide, by decide⟩

/-- C8 as amended: only a missing `parents` attribute (or a missing vertex
entry) makes moralization — and hence every `get_chordal_nx` call — fail
fast with a `KeyError` and no partial result; a missing `vals` goes
undetected. -/
theorem C8_amended (bn : BayesNet) (n : Vertex) (h1 : n ∈ bn.V)
    (h2 : parentsOf bn n = none) :
    get_moralized_edge_list bn = .error .keyError ∧
    ∀ (v : Option (List Vertex)) (e : Option (List Edge)),
      get_chordal_nx bn v e = .error .keyError := by
  have hm : get_moralized_edge_list bn = .error .keyError :=
    moralLoop_error _ _ _ h1 h2
  refine ⟨hm, fun v e => ?_⟩
  unfold get_chordal_nx
  rw [hm]

/-- Witness for the amended C8 on a network whose only vertex lacks
`parents`. -/
theorem C8_witness : get_moralized_edge_list bnNoPar = .error .keyError :=
  (C8_amended bnNoPar 1 (by decide) (by decide)).1

/-- C9 counterexample: overrides naming the vertices `9` and `8`, absent
from `bn5`'s base graph, are accepted silently and used verbatim — no
error of any kind reaches the caller. -/
theorem C9_counterexample :
    (9 : Vertex) ∉ bn5.V ∧ (8 : Vertex) ∉ bn5.V ∧
    get_chordal_nx bn5 (some [9]) (some [(9, 8)]) = .ok [(9, 8)] :=
  ⟨by decide, by decide, by decide⟩

/-- C9 as amended: `get_chordal_nx` performs no validation of the
`v`/`e` overrides whatsoever; whenever moralization succeeds, an override
call returns a result, for arbitrary override contents. -/
theorem C9_amended (bn : BayesNet) (M : List Edge) (v : List Vertex)
    (e : List Edge) (h : get_moralized_edge_list bn = .ok M) :
    ∃ R, get_chordal_nx bn (some v) (some e) = .ok R := by
  by_cases hc : bn.is_chordal (some M) = true
  · exact ⟨M, get_chordal_nx_guard h hc _ _⟩
  · have hc' : bn.is_chordal (some M) = false := by
      cases hb : bn.is_chordal (some M)
      · rfl
      · exact absurd hb hc
    cases hve : (truthy (some v) && truthy (some e)) with
    | false =>
      exact ⟨triangulate M,
        (get_chordal_nx_falsy hve).trans (get_chordal_nx_eq_triangulate h)⟩
    | true =>
      rw [Bool.and_eq_true] at hve
      exact ⟨elimGame e v, get_chordal_nx_override h hc' hve.1 hve.2⟩

/-- Witness for the amended C9 at `bn5` with an out-of-graph override. -/
theorem C9_witness : ∃ R, get_chordal_nx bn5 (some [2]) (some [(2, 9)]) = .ok R :=
  C9_amended bn5 [(1, 2), (2, 3), (3, 4), (5, 4), (1, 5), (3, 5)] [2] [(2, 9)] (by decide)

/-- C10: the override path runs only when both `v` and `e` are truthy; a
`None` or empty override makes the call identical to the no-override call,
and when the moral graph is rejected the elimination then runs over the
moral edges with the vertices in ascending-degree order. -/
theorem C10_override_requires_both (bn : BayesNet) (v : Option (List Vertex))
    (e : Option (List Edge)) (M : List Edge)
    (hve : (truthy v && truthy e) = false)
    (hm : get_moralized_edge_list bn = .ok M) :
    get_chordal_nx bn v e = get_chordal_nx bn none none ∧
    (bn.is_chordal (some M) = false →
      get_chordal_nx bn v e = .ok (elimGame M (degreeOrder M))) := by
  refine ⟨get_chordal_nx_falsy hve, fun hc => ?_⟩
  rw [get_chordal_nx_falsy hve]
  unfold get_chordal_nx
  rw [hm]
  show (if bn.is_chordal (some M) = true then Except.ok M
        else Except.ok (elimGame M (degreeOrder M))) = _
  rw [hc]
  simp

/-- Witness for C10: an empty `v` override is falsy and is ignored. -/
theorem C10_witness :
    get_chordal_nx bn5 (some []) (some [(1, 2)]) = get_chordal_nx bn5 none none :=
  (C10_override_requires_both bn5 (some []) (some [(1, 2)])
    [(1, 2), (2, 3), (3, 4), (5, 4), (1, 5), (3, 5)] rfl (by decide)).1

end pyBN
